import Mathlib

/-!
Verification development for the `auto` automaton engine.

The Rust sources are shallowly embedded as follows:

* `HashMap`/`HashSet`-based NFA transition relations become `Finset`s of
  edges (`graph : Finset (S × T × S)` etc.); set semantics of the builder
  (`connect` inserts into a `HashSet`) makes the edge-set view faithful.
* DFA transition tables (`HashMap<S, HashMap<T, S>>`, flattened to keys
  `(S, T)`) become association lists with unique keys; `insert` is
  modelled by `updateA` (replace the binding in place, or append).
* Panics (`unwrap`, `panic!("duplicated transition")`) are modelled by
  `Option`/`Except`.
* The unbounded fixed-point loops (`extend_state_set`, the determinizer
  work list) are modelled with explicit fuel; for the epsilon closure a
  sufficient fuel bound is proved so the embedded closure reaches the
  same fixed point the Rust loop reaches.
-/

/-- Association-list lookup, modelling `HashMap::get`. -/
def lookupA {K V : Type} [DecidableEq K] : List (K × V) → K → Option V
  | [], _ => none
  | p :: rest, k => if p.1 = k then some p.2 else lookupA rest k

/-- Association-list insert, modelling `HashMap::insert`: replace the
binding in place if the key is present, otherwise add it. -/
def updateA {K V : Type} [DecidableEq K] : List (K × V) → K → V → List (K × V)
  | [], k, v => [(k, v)]
  | p :: rest, k, v => if p.1 = k then (k, v) :: rest else p :: updateA rest k v

/-! ## NFA data model (`src/nfa.rs`) -/

/-- `NFAutoBlueprint` from `nfa.rs`: three transition relations, a start
state and the accept set.  The `HashMap<S, HashMap<T, HashSet<S>>>`
plain graph is represented by its set of edges, likewise the void
(epsilon) and wildcard relations. -/
structure NFAutoBlueprint (S T : Type) where
  graph : Finset (S × T × S)
  void_graph : Finset (S × S)
  wildcard_graph : Finset (S × S)
  start_state : S
  accept_state_set : Finset S

/-- Modelled from the spec: the accessor `NFAutoBlueprint::connections_from`
used by `algo.rs` is not present under `src/`; per the spec's data model
(section 3) it exposes, for one state, the plain destinations per label.
Here: the plain destinations of `(s, t)`. -/
def NFAutoBlueprint.plainDests {S T : Type} [DecidableEq S] [DecidableEq T]
    (bp : NFAutoBlueprint S T) (s : S) (t : T) : Finset S :=
  (bp.graph.filter fun e => e.1 = s ∧ e.2.1 = t).image fun e => e.2.2

/-- Void (epsilon) destinations of a state, `void_graph.get(state)`. -/
def NFAutoBlueprint.voidDests {S T : Type} [DecidableEq S]
    (bp : NFAutoBlueprint S T) (s : S) : Finset S :=
  (bp.void_graph.filter fun e => e.1 = s).image fun e => e.2

/-- Wildcard destinations of a state, `wildcard_graph.get(state)`. -/
def NFAutoBlueprint.wildcardDests {S T : Type} [DecidableEq S]
    (bp : NFAutoBlueprint S T) (s : S) : Finset S :=
  (bp.wildcard_graph.filter fun e => e.1 = s).image fun e => e.2

/-- All void-edge destinations; only used to bound the closure loop. -/
def NFAutoBlueprint.voidAll {S T : Type} [DecidableEq S]
    (bp : NFAutoBlueprint S T) : Finset S :=
  bp.void_graph.image fun e => e.2

/-- One iteration of the `extend_state_set` loop body from `nfa.rs` /
`algo.rs`: union the current set with every state reachable by a single
void edge from a member. -/
def extendOnce {S T : Type} [DecidableEq S] (bp : NFAutoBlueprint S T)
    (cur : Finset S) : Finset S :=
  cur ∪ cur.biUnion fun s => bp.voidDests s

/-- The `loop` of `extend_state_set`, with explicit fuel: stop (returning
the current set) when one more iteration does not grow the set, mirroring
the `extended.len() == state_set.len()` check. -/
def extendIter {S T : Type} [DecidableEq S] (bp : NFAutoBlueprint S T) :
    Nat → Finset S → Finset S
  | 0, cur => cur
  | n + 1, cur =>
    if (extendOnce bp cur).card = cur.card then cur
    else extendIter bp n (extendOnce bp cur)

/-- `extend_state_set` (`algo.rs`) / `extend_current_state_set` (`nfa.rs`):
epsilon closure.  The fuel `voidAll.card + 1` is proved sufficient to
reach the loop's fixed point (`extendStateSet_fixpoint`). -/
def extendStateSet {S T : Type} [DecidableEq S] (bp : NFAutoBlueprint S T)
    (cur : Finset S) : Finset S :=
  extendIter bp (bp.voidAll.card + 1) cur

/-! ## NFA walker (`src/nfa.rs`) -/

/-- `NFAutoBlueprint::create`: the walker's initial `current_state_set`,
the epsilon closure of the singleton start set.  The walker itself is
represented by its `current_state_set`. -/
def NFAutoBlueprint.create {S T : Type} [DecidableEq S]
    (bp : NFAutoBlueprint S T) : Finset S :=
  extendStateSet bp {bp.start_state}

namespace NFAuto

/-- `NFAuto::trigger`: flat-map over the current set of the union of the
plain destinations for the presented label with the wildcard
destinations, then epsilon-close. -/
def trigger {S T : Type} [DecidableEq S] [DecidableEq T] (bp : NFAutoBlueprint S T)
    (cur : Finset S) (t : T) : Finset S :=
  extendStateSet bp (cur.biUnion fun s => bp.plainDests s t ∪ bp.wildcardDests s)

/-- `NFAuto::is_dead`: the current state set is empty. -/
def is_dead {S : Type} [DecidableEq S] (cur : Finset S) : Bool :=
  decide (cur = ∅)

/-- `NFAuto::is_accepted`: the current set intersects the accept set. -/
def is_accepted {S T : Type} [DecidableEq S] (bp : NFAutoBlueprint S T)
    (cur : Finset S) : Bool :=
  !(decide (cur ∩ bp.accept_state_set = ∅))

end NFAuto

/-! ## The stepping contract (`src/auto.rs`) -/

/-- The `Auto` trait: one record of the three required operations, over a
walker-state type `A`. -/
structure AutoI (A T : Type) where
  trigger : A → T → A
  test_trigger : A → T → Bool
  is_accepted : A → Bool

/-- The provided method `Auto::test`: for each symbol in order, return
`false` as soon as `test_trigger` fails, otherwise trigger it; after the
whole sequence return `is_accepted`. -/
def AutoI.test {A T : Type} (M : AutoI A T) : A → List T → Bool
  | a, [] => M.is_accepted a
  | a, t :: rest => if M.test_trigger a t then M.test (M.trigger a t) rest else false

/-- Run every `trigger` of a sequence (no legality checks). -/
def AutoI.runAll {A T : Type} (M : AutoI A T) : A → List T → A
  | a, [] => a
  | a, t :: rest => M.runAll (M.trigger a t) rest

/-- Whether every step of a sequence passes its `test_trigger` check. -/
def AutoI.stepsOk {A T : Type} (M : AutoI A T) : A → List T → Bool
  | _, [] => true
  | a, t :: rest => M.test_trigger a t && M.stepsOk (M.trigger a t) rest

/-- The `Auto` implementation of the NFA walker (`nfa.rs`):
`test_trigger` ignores the symbol and reports `!is_dead()`. -/
def nfaMachine {S T : Type} [DecidableEq S] [DecidableEq T]
    (bp : NFAutoBlueprint S T) : AutoI (Finset S) T where
  trigger := fun cur t => NFAuto.trigger bp cur t
  test_trigger := fun cur _ => !(NFAuto.is_dead cur)
  is_accepted := fun cur => NFAuto.is_accepted bp cur

/-! ## DFA data model (`src/dfa.rs`) -/

/-- `DFAutoBuilder` from `dfa.rs`; the nested
`HashMap<S, HashMap<T, S>>` is flattened to an association list keyed by
`(S, T)` (an outer key exists iff some `(S, ·)` binding exists). -/
structure DFAutoBuilder (S T : Type) where
  graph : List ((S × T) × S)
  fallback_graph : List (S × S)
  start_state : S
  accept_state_set : Finset S

/-- `DFAutoBuilder::start`. -/
def DFAutoBuilder.start {S T : Type} (s : S) : DFAutoBuilder S T :=
  ⟨[], [], s, ∅⟩

/-- `DFAutoBuilder::connect`: insert the binding, then `panic!` (here:
`Except.error`) if a previous binding for the same `(from, trans)` key
named a different destination. -/
def DFAutoBuilder.connect {S T : Type} [DecidableEq S] [DecidableEq T]
    (b : DFAutoBuilder S T) (f : S) (tr : T) (dst : S) :
    Except String (DFAutoBuilder S T) :=
  match lookupA b.graph (f, tr) with
  | some old_to =>
    if old_to = dst then Except.ok { b with graph := updateA b.graph (f, tr) dst }
    else Except.error "duplicated transition"
  | none => Except.ok { b with graph := updateA b.graph (f, tr) dst }

/-- `DFAutoBuilder::connect_fallback`. -/
def DFAutoBuilder.connect_fallback {S T : Type} [DecidableEq S]
    (b : DFAutoBuilder S T) (f : S) (dst : S) :
    Except String (DFAutoBuilder S T) :=
  match lookupA b.fallback_graph f with
  | some old_to =>
    if old_to = dst then
      Except.ok { b with fallback_graph := updateA b.fallback_graph f dst }
    else Except.error "duplicated fallback transition"
  | none => Except.ok { b with fallback_graph := updateA b.fallback_graph f dst }

/-- `DFAutoBuilder::accept`. -/
def DFAutoBuilder.accept {S T : Type} [DecidableEq S]
    (b : DFAutoBuilder S T) (s : S) : DFAutoBuilder S T :=
  { b with accept_state_set := insert s b.accept_state_set }

/-- `DFAutoBlueprint` from `dfa.rs`. -/
structure DFAutoBlueprint (S T : Type) where
  graph : List ((S × T) × S)
  fallback_graph : List (S × S)
  start_state : S
  accept_state_set : Finset S

/-- `DFAutoBuilder::finalize`. -/
def DFAutoBuilder.finalize {S T : Type} (b : DFAutoBuilder S T) :
    DFAutoBlueprint S T :=
  ⟨b.graph, b.fallback_graph, b.start_state, b.accept_state_set⟩

namespace DFAuto

/-- `DFAuto::test_trigger` (`dfa.rs`): a plain entry for
`(current_state, label)` exists, or a fallback entry for
`current_state` exists. -/
def test_trigger {S T : Type} [DecidableEq S] [DecidableEq T]
    (bp : DFAutoBlueprint S T) (s : S) (tr : T) : Bool :=
  (lookupA bp.graph (s, tr)).isSome || (lookupA bp.fallback_graph s).isSome

/-- `DFAuto::trigger` (`dfa.rs`): the plain destination if present,
otherwise the fallback destination; `none` models the `unwrap` panic
when neither exists. -/
def trigger {S T : Type} [DecidableEq S] [DecidableEq T]
    (bp : DFAutoBlueprint S T) (s : S) (tr : T) : Option S :=
  match lookupA bp.graph (s, tr) with
  | some s' => some s'
  | none => lookupA bp.fallback_graph s

/-- `DFAuto::is_accepted` (`dfa.rs`). -/
def is_accepted {S T : Type} [DecidableEq S] (bp : DFAutoBlueprint S T)
    (s : S) : Bool :=
  decide (s ∈ bp.accept_state_set)

end DFAuto

/-- The `Auto` implementation of the DFA walker (`dfa.rs`), with the
walker state lifted to `Option S` so that a `trigger` panic (`none`)
propagates. -/
def dfaMachine {S T : Type} [DecidableEq S] [DecidableEq T]
    (bp : DFAutoBlueprint S T) : AutoI (Option S) T where
  trigger := fun a tr => a.bind fun s => DFAuto.trigger bp s tr
  test_trigger := fun a tr =>
    match a with
    | some s => DFAuto.test_trigger bp s tr
    | none => false
  is_accepted := fun a =>
    match a with
    | some s => DFAuto.is_accepted bp s
    | none => false

/-- `nfa_blueprint.create().test(seq)`. -/
def nfaTest {S T : Type} [DecidableEq S] [DecidableEq T]
    (bp : NFAutoBlueprint S T) (l : List T) : Bool :=
  (nfaMachine bp).test bp.create l

/-- `dfa_blueprint.create().test(seq)`; the fresh walker holds the start
state. -/
def dfaTest {S T : Type} [DecidableEq S] [DecidableEq T]
    (bp : DFAutoBlueprint S T) (l : List T) : Bool :=
  (dfaMachine bp).test (some bp.start_state) l

/-! ## The second, fallback-less DFA at the crate root (`src/lib.rs`) -/

/-- Whether some plain binding leaves state `s`, i.e. whether the outer
`HashMap` of `lib.rs` has the key `s`. -/
def libHasState {S T : Type} [DecidableEq S] (g : List ((S × T) × S)) (s : S) : Bool :=
  g.any fun e => decide (e.1.1 = s)

/-- `DFAutoBlueprint` from `lib.rs`: plain transitions only, no
fallback table. -/
structure LibDFAutoBlueprint (S T : Type) where
  graph : List ((S × T) × S)
  start_state : S
  accept_state_set : Finset S

namespace LibDFAuto

/-- `DFAuto::test_trigger` from `lib.rs`:
`graph.get(current).unwrap().contains_key(trans)` — `none` models the
`unwrap` panic when the current state has no outgoing entry at all. -/
def test_trigger {S T : Type} [DecidableEq S] [DecidableEq T]
    (bp : LibDFAutoBlueprint S T) (s : S) (tr : T) : Option Bool :=
  if libHasState bp.graph s then some (lookupA bp.graph (s, tr)).isSome
  else none

/-- `DFAuto::trigger` from `lib.rs`:
`graph.get(current).unwrap().get(trans).unwrap()`; both `unwrap` panics
collapse to a failed lookup of the flattened key. -/
def trigger {S T : Type} [DecidableEq S] [DecidableEq T]
    (bp : LibDFAutoBlueprint S T) (s : S) (tr : T) : Option S :=
  lookupA bp.graph (s, tr)

end LibDFAuto

/-! ## The determinizer (`src/algo.rs`) -/

/-- The labels carried by plain edges leaving some member of a state
set: the keys of the per-label accumulator `aggregated_connections`. -/
def labelsOf {S T : Type} [DecidableEq S] [DecidableEq T]
    (nfa : NFAutoBlueprint S T) (sset : Finset S) : Finset T :=
  (nfa.graph.filter fun e => e.1 ∈ sset).image fun e => e.2.1

/-- The accumulated destination set for one label: the union over the
members of the epsilon closures of their plain destinations (states
without the label contribute the closure of `∅`, which is `∅`, matching
the Rust code that skips absent keys). -/
def aggDest {S T : Type} [DecidableEq S] [DecidableEq T]
    (nfa : NFAutoBlueprint S T) (sset : Finset S) (t : T) : Finset S :=
  sset.biUnion fun s => extendStateSet nfa (nfa.plainDests s t)

/-- The accumulated wildcard destination set,
`aggregated_wildcard_connections`. -/
def aggWild {S T : Type} [DecidableEq S] [DecidableEq T]
    (nfa : NFAutoBlueprint S T) (sset : Finset S) : Finset S :=
  sset.biUnion fun s => extendStateSet nfa (nfa.wildcardDests s)

/-- A canonical, kernel-computable enumeration of a finite set in
ascending order; it stands in for the unspecified `HashMap` iteration
order of the Rust loops (whose net effect is order-independent). -/
def finsetSort {T : Type} [LinearOrder T] (s : Finset T) : List T :=
  Quot.liftOn s.val (fun l => List.insertionSort (fun a b => a ≤ b) l)
    (fun l1 l2 h =>
      List.eq_of_perm_of_sorted
        (((List.perm_insertionSort _ l1).trans h).trans
          (List.perm_insertionSort _ l2).symm)
        (List.sorted_insertionSort _ l1) (List.sorted_insertionSort _ l2))

/-- The loop over `aggregated_connections` in `determinize`: connect
each label to its accumulated destination and collect the unresolved
destinations to push onto the work list. -/
def connectLabels {S T : Type} [DecidableEq S] [DecidableEq T]
    (nfa : NFAutoBlueprint S T) (sset : Finset S) (resolved : Finset (Finset S)) :
    DFAutoBuilder (Finset S) T → List T → List (Finset S) →
    Except String (DFAutoBuilder (Finset S) T × List (Finset S))
  | b, [], pushes => Except.ok (b, pushes)
  | b, t :: rest, pushes =>
    match b.connect sset t (aggDest nfa sset t) with
    | Except.error e => Except.error e
    | Except.ok b' =>
      connectLabels nfa sset resolved b' rest
        (if aggDest nfa sset t ∈ resolved then pushes
         else aggDest nfa sset t :: pushes)

/-- One iteration of the `determinize` work-list loop: mark the set
accepting if it holds an NFA accept state, emit the plain edges, then
the fallback edge if the wildcard accumulator is nonempty. -/
def detStep {S T : Type} [DecidableEq S] [LinearOrder T]
    (nfa : NFAutoBlueprint S T) (b : DFAutoBuilder (Finset S) T)
    (sset : Finset S) (resolved : Finset (Finset S)) :
    Except String (DFAutoBuilder (Finset S) T × List (Finset S)) :=
  let b1 := if sset ∩ nfa.accept_state_set = ∅ then b else b.accept sset
  match connectLabels nfa sset resolved b1 (finsetSort (labelsOf nfa sset)) [] with
  | Except.error e => Except.error e
  | Except.ok (b2, pushes) =>
    if aggWild nfa sset = ∅ then Except.ok (b2, pushes)
    else
      match b2.connect_fallback sset (aggWild nfa sset) with
      | Except.error e => Except.error e
      | Except.ok b3 =>
        Except.ok (b3, if aggWild nfa sset ∈ resolved then pushes
                       else aggWild nfa sset :: pushes)

/-- Outcome of the fueled determinizer: either a builder panic message
(`build`) or fuel exhaustion of the embedding. -/
inductive DetError
  | outOfFuel
  | build (msg : String)

/-- The `while let Some(state_set) = unresolved_state_set_list.pop()`
loop of `determinize`, with explicit fuel.  The popped set is processed
unconditionally (it may have been pushed, and even resolved, more than
once) and added to the resolved set afterwards. -/
def detLoop {S T : Type} [DecidableEq S] [LinearOrder T]
    (nfa : NFAutoBlueprint S T) :
    Nat → DFAutoBuilder (Finset S) T → List (Finset S) → Finset (Finset S) →
    Except DetError (DFAutoBlueprint (Finset S) T)
  | _, b, [], _ => Except.ok b.finalize
  | 0, _, _ :: _, _ => Except.error DetError.outOfFuel
  | fuel + 1, b, sset :: rest, resolved =>
    match detStep nfa b sset resolved with
    | Except.error e => Except.error (DetError.build e)
    | Except.ok (b', pushes) =>
      detLoop nfa fuel b' (pushes ++ rest) (insert sset resolved)

/-- `determinize` (`algo.rs`): seed the work list and the builder with
the epsilon closure of the singleton start set, then run the work-list
loop. -/
def determinize {S T : Type} [DecidableEq S] [LinearOrder T]
    (nfa : NFAutoBlueprint S T) (fuel : Nat) :
    Except DetError (DFAutoBlueprint (Finset S) T) :=
  detLoop nfa fuel (DFAutoBuilder.start (extendStateSet nfa {nfa.start_state}))
    [extendStateSet nfa {nfa.start_state}] ∅

/-- Whether a determinizer outcome is a builder conflict panic. -/
def isDupError {X : Type} : Except DetError X → Bool
  | Except.error (DetError.build _) => true
  | _ => false

/-! ## Concrete example automata used by witnesses and counterexamples -/

/-- A small NFA blueprint: plain edge `0 --5--> 1`, wildcard edge
`0 --*--> 2`, accept state `2`. -/
def exNfa : NFAutoBlueprint Nat Nat where
  graph := {(0, 5, 1)}
  void_graph := ∅
  wildcard_graph := {(0, 2)}
  start_state := 0
  accept_state_set := {2}

/-- A small DFA blueprint with a plain edge `0 --5--> 1` and a fallback
edge `0 --> 2`. -/
def exDfa : DFAutoBlueprint Nat Nat where
  graph := [((0, 5), 1)]
  fallback_graph := [(0, 2)]
  start_state := 0
  accept_state_set := {1}

/-- A DFA builder holding the edge `0 --5--> 1` and the fallback
`0 --> 2`. -/
def exBuilder : DFAutoBuilder Nat Nat where
  graph := [((0, 5), 1)]
  fallback_graph := [(0, 2)]
  start_state := 0
  accept_state_set := ∅

/-- A `lib.rs` DFA blueprint whose accept state `1` has no outgoing
edges. -/
def exLib : LibDFAutoBlueprint Nat Nat where
  graph := [((0, 5), 1)]
  start_state := 0
  accept_state_set := {1}

/-! ## Association-list lemmas -/

theorem lookupA_nil {K V : Type} [DecidableEq K] (k : K) :
    lookupA ([] : List (K × V)) k = none := rfl

theorem lookupA_isSome_iff {K V : Type} [DecidableEq K] (l : List (K × V)) (k : K) :
    (lookupA l k).isSome = true ↔ ∃ p ∈ l, p.1 = k := by
  induction l with
  | nil => simp [lookupA]
  | cons p rest ih =>
    simp only [lookupA, List.mem_cons]
    by_cases h : p.1 = k
    · rw [if_pos h]
      constructor
      · intro _
        exact ⟨p, Or.inl rfl, h⟩
      · intro _
        rfl
    · rw [if_neg h, ih]
      constructor
      · rintro ⟨q, hq, hk⟩
        exact ⟨q, Or.inr hq, hk⟩
      · rintro ⟨q, hq | hq, hk⟩
        · subst hq
          exact absurd hk h
        · exact ⟨q, hq, hk⟩

theorem updateA_of_lookupA_eq {K V : Type} [DecidableEq K] (l : List (K × V)) (k : K) (v : V)
    (h : lookupA l k = some v) : updateA l k v = l := by
  induction l with
  | nil => simp [lookupA] at h
  | cons p rest ih =>
    by_cases hp : p.1 = k
    · simp only [lookupA, if_pos hp] at h
      obtain rfl : p.2 = v := Option.some.inj h
      simp [updateA, if_pos hp]
      exact hp ▸ rfl
    · simp only [lookupA, if_neg hp] at h
      simp [updateA, if_neg hp, ih h]

/-! ## Epsilon-closure lemmas -/

theorem subset_extendOnce {S T : Type} [DecidableEq S] (bp : NFAutoBlueprint S T)
    (cur : Finset S) : cur ⊆ extendOnce bp cur :=
  Finset.subset_union_left

theorem voidDests_subset_voidAll {S T : Type} [DecidableEq S]
    (bp : NFAutoBlueprint S T) (s : S) : bp.voidDests s ⊆ bp.voidAll := by
  intro x hx
  simp only [NFAutoBlueprint.voidDests, Finset.mem_image, Finset.mem_filter] at hx
  obtain ⟨e, ⟨he, _⟩, hex⟩ := hx
  exact Finset.mem_image.mpr ⟨e, he, hex⟩

theorem extendOnce_subset {S T : Type} [DecidableEq S] (bp : NFAutoBlueprint S T)
    (cur : Finset S) : extendOnce bp cur ⊆ cur ∪ bp.voidAll := by
  intro x hx
  rcases Finset.mem_union.mp hx with h | h
  · exact Finset.mem_union_left _ h
  · obtain ⟨s, _, hs⟩ := Finset.mem_biUnion.mp h
    exact Finset.mem_union_right _ (voidDests_subset_voidAll bp s hs)

theorem subset_extendIter {S T : Type} [DecidableEq S] (bp : NFAutoBlueprint S T) :
    ∀ (n : Nat) (cur : Finset S), cur ⊆ extendIter bp n cur := by
  intro n
  induction n with
  | zero => intro cur; exact Finset.Subset.refl cur
  | succ n ih =>
    intro cur
    by_cases h : (extendOnce bp cur).card = cur.card
    · simp [extendIter, h]
    · simp only [extendIter, if_neg h]
      exact (subset_extendOnce bp cur).trans (ih (extendOnce bp cur))

theorem subset_extendStateSet {S T : Type} [DecidableEq S] (bp : NFAutoBlueprint S T)
    (cur : Finset S) : cur ⊆ extendStateSet bp cur :=
  subset_extendIter bp _ cur

theorem extendIter_fixpoint {S T : Type} [DecidableEq S] (bp : NFAutoBlueprint S T) :
    ∀ (n : Nat) (cur : Finset S),
      (cur ∪ bp.voidAll).card ≤ cur.card + n →
      extendOnce bp (extendIter bp n cur) = extendIter bp n cur := by
  intro n
  induction n with
  | zero =>
    intro cur h
    simp only [Nat.add_zero] at h
    have hcur : cur = cur ∪ bp.voidAll :=
      Finset.eq_of_subset_of_card_le Finset.subset_union_left h
    simp only [extendIter]
    apply Finset.Subset.antisymm
    · exact (extendOnce_subset bp cur).trans (le_of_eq hcur.symm)
    · exact subset_extendOnce bp cur
  | succ n ih =>
    intro cur h
    by_cases hc : (extendOnce bp cur).card = cur.card
    · have : cur = extendOnce bp cur :=
        Finset.eq_of_subset_of_card_le (subset_extendOnce bp cur) (le_of_eq hc)
      simp only [extendIter, if_pos hc]
      exact this.symm
    · simp only [extendIter, if_neg hc]
      apply ih
      have hlt : cur.card < (extendOnce bp cur).card :=
        lt_of_le_of_ne (Finset.card_le_card (subset_extendOnce bp cur)) (Ne.symm hc)
      have hunion : extendOnce bp cur ∪ bp.voidAll = cur ∪ bp.voidAll := by
        apply Finset.Subset.antisymm
        · exact Finset.union_subset (extendOnce_subset bp cur)
            Finset.subset_union_right
        · exact Finset.union_subset
            ((subset_extendOnce bp cur).trans Finset.subset_union_left)
            Finset.subset_union_right
      calc (extendOnce bp cur ∪ bp.voidAll).card
          = (cur ∪ bp.voidAll).card := by rw [hunion]
        _ ≤ cur.card + (n + 1) := h
        _ ≤ (extendOnce bp cur).card + n := by omega

theorem extendStateSet_fixpoint {S T : Type} [DecidableEq S] (bp : NFAutoBlueprint S T)
    (cur : Finset S) :
    extendOnce bp (extendStateSet bp cur) = extendStateSet bp cur := by
  apply extendIter_fixpoint
  calc (cur ∪ bp.voidAll).card ≤ cur.card + bp.voidAll.card := Finset.card_union_le _ _
    _ ≤ cur.card + (bp.voidAll.card + 1) := by omega

theorem extendIter_of_fixpoint {S T : Type} [DecidableEq S] (bp : NFAutoBlueprint S T)
    (cur : Finset S) (h : extendOnce bp cur = cur) :
    ∀ n : Nat, extendIter bp n cur = cur := by
  intro n
  cases n with
  | zero => rfl
  | succ n =>
    have : (extendOnce bp cur).card = cur.card := by rw [h]
    simp [extendIter, this]

theorem extendStateSet_idem {S T : Type} [DecidableEq S] (bp : NFAutoBlueprint S T)
    (cur : Finset S) :
    extendStateSet bp (extendStateSet bp cur) = extendStateSet bp cur :=
  extendIter_of_fixpoint bp _ (extendStateSet_fixpoint bp cur) _

theorem extendStateSet_empty {S T : Type} [DecidableEq S] (bp : NFAutoBlueprint S T) :
    extendStateSet bp (∅ : Finset S) = ∅ := by
  apply extendIter_of_fixpoint
  simp [extendOnce]

/-! ## Properties of the stepping contract -/

theorem AutoI.test_of_stepsOk {A T : Type} (M : AutoI A T) :
    ∀ (l : List T) (a : A), M.stepsOk a l = true →
      M.test a l = M.is_accepted (M.runAll a l) := by
  intro l
  induction l with
  | nil =>
    intro a _
    rfl
  | cons t rest ih =>
    intro a h
    simp only [AutoI.stepsOk, Bool.and_eq_true] at h
    simp only [AutoI.test, AutoI.runAll, h.1, if_true]
    exact ih (M.trigger a t) h.2

theorem AutoI.test_false_of_blocked {A T : Type} (M : AutoI A T) :
    ∀ (pre : List T) (a : A) (t : T) (post : List T),
      M.stepsOk a pre = true →
      M.test_trigger (M.runAll a pre) t = false →
      M.test a (pre ++ t :: post) = false := by
  intro pre
  induction pre with
  | nil =>
    intro a t post _ hb
    simp only [AutoI.runAll] at hb
    simp [AutoI.test, hb]
  | cons p pre ih =>
    intro a t post h hb
    simp only [AutoI.stepsOk, Bool.and_eq_true] at h
    simp only [AutoI.runAll] at hb
    simp only [List.cons_append, AutoI.test, h.1, if_true]
    exact ih (M.trigger a p) t post h.2 hb

/-! ## NFA walker facts -/

theorem NFAuto.trigger_empty {S T : Type} [DecidableEq S] [DecidableEq T]
    (bp : NFAutoBlueprint S T) (t : T) :
    NFAuto.trigger bp (∅ : Finset S) t = ∅ := by
  unfold NFAuto.trigger
  rw [show Finset.biUnion ∅ (fun s => bp.plainDests s t ∪ bp.wildcardDests s) = ∅ by simp]
  exact extendStateSet_empty bp

/-! ## Claim theorems -/

/-- C2: for every NFA walker and symbol `t`, `trigger` replaces the
current state set by the epsilon closure of the union, over every held
state `s`, of the plain destinations of `(s, t)` with the wildcard
destinations of `s`; the wildcard destinations of every held state are
included in the new set regardless of which symbol was presented. -/
theorem nfa_trigger_closure {S T : Type} [DecidableEq S] [DecidableEq T]
    (bp : NFAutoBlueprint S T) (cur : Finset S) (t : T) :
    NFAuto.trigger bp cur t =
      extendStateSet bp
        (cur.biUnion fun s => bp.plainDests s t ∪ bp.wildcardDests s) ∧
    ∀ s ∈ cur, bp.wildcardDests s ⊆ NFAuto.trigger bp cur t := by
  refine ⟨rfl, ?_⟩
  intro s hs x hx
  apply subset_extendStateSet
  exact Finset.mem_biUnion.mpr ⟨s, hs, Finset.mem_union_right _ hx⟩

theorem nfa_trigger_closure_witness :
    NFAuto.trigger exNfa {0} 9 =
      extendStateSet exNfa
        (Finset.biUnion {0} fun s => exNfa.plainDests s 9 ∪ exNfa.wildcardDests s) ∧
    exNfa.wildcardDests 0 ⊆ NFAuto.trigger exNfa {0} 9 :=
  ⟨(nfa_trigger_closure exNfa {0} 9).1,
   (nfa_trigger_closure exNfa {0} 9).2 0 (by decide)⟩

/-- C3: for every automaton walker (any implementation of the stepping
contract, in particular the NFA and DFA walkers) and every symbol
sequence, `test` returns `false` as soon as a step's `test_trigger`
fails, independently of the symbols after the failing one; if every
step passes, it triggers the whole sequence in order and returns the
final `is_accepted`. -/
theorem auto_test_contract {A T : Type} (M : AutoI A T) (a : A) :
    (∀ l, M.stepsOk a l = true → M.test a l = M.is_accepted (M.runAll a l)) ∧
    (∀ pre t post, M.stepsOk a pre = true →
      M.test_trigger (M.runAll a pre) t = false →
      M.test a (pre ++ t :: post) = false) :=
  ⟨fun l h => AutoI.test_of_stepsOk M l a h,
   fun pre t post h hb => AutoI.test_false_of_blocked M pre a t post h hb⟩

theorem auto_test_contract_witness :
    (nfaMachine exNfa).test exNfa.create [5]
      = (nfaMachine exNfa).is_accepted ((nfaMachine exNfa).runAll exNfa.create [5]) ∧
    (nfaMachine exNfa).test exNfa.create ([5, 5] ++ 5 :: [7]) = false :=
  ⟨(auto_test_contract (nfaMachine exNfa) exNfa.create).1 [5] (by decide),
   (auto_test_contract (nfaMachine exNfa) exNfa.create).2 [5, 5] 5 [7]
     (by decide) (by decide)⟩

/-- C7: an NFA walker whose current state set is empty (`is_dead`)
stays dead under any further sequence of `trigger` calls. -/
theorem nfa_dead_stays_dead {S T : Type} [DecidableEq S] [DecidableEq T]
    (bp : NFAutoBlueprint S T) (cur : Finset S)
    (h : NFAuto.is_dead cur = true) (l : List T) :
    NFAuto.is_dead ((nfaMachine bp).runAll cur l) = true := by
  have hcur : cur = ∅ := by simpa [NFAuto.is_dead] using h
  subst hcur
  induction l with
  | nil => simp [AutoI.runAll, NFAuto.is_dead]
  | cons t rest ih =>
    simp only [AutoI.runAll]
    rw [show (nfaMachine bp).trigger ∅ t = (∅ : Finset S) from
      NFAuto.trigger_empty bp t]
    exact ih

theorem nfa_dead_stays_dead_witness :
    NFAuto.is_dead ((nfaMachine exNfa).runAll ∅ [5, 7]) = true :=
  nfa_dead_stays_dead exNfa ∅ (by decide) [5, 7]

/-- C8: `create()` seeds the walker with the epsilon closure of the
singleton start-state set, and applying the closure operation to that
set again does not change it (the closure result is a fixed point). -/
theorem nfa_create_closure_fixed {S T : Type} [DecidableEq S]
    (bp : NFAutoBlueprint S T) :
    bp.create = extendStateSet bp {bp.start_state} ∧
    extendStateSet bp bp.create = bp.create :=
  ⟨rfl, extendStateSet_idem bp _⟩

/-- C4: a DFA `trigger` prefers the plain edge over the fallback when
both exist for the presented label; the fallback destination is taken
exactly when no plain edge for that label leaves the current state. -/
theorem dfa_trigger_prefers_plain {S T : Type} [DecidableEq S] [DecidableEq T]
    (bp : DFAutoBlueprint S T) (s : S) (tr : T) :
    (∀ p f, lookupA bp.graph (s, tr) = some p →
      lookupA bp.fallback_graph s = some f →
      DFAuto.trigger bp s tr = some p) ∧
    (∀ f, lookupA bp.graph (s, tr) = none →
      lookupA bp.fallback_graph s = some f →
      DFAuto.trigger bp s tr = some f) := by
  constructor
  · intro p f hp _
    simp [DFAuto.trigger, hp]
  · intro f hp hf
    simp [DFAuto.trigger, hp, hf]

theorem dfa_trigger_prefers_plain_witness :
    DFAuto.trigger exDfa 0 5 = some 1 ∧ DFAuto.trigger exDfa 0 7 = some 2 :=
  ⟨(dfa_trigger_prefers_plain exDfa 0 5).1 1 2 (by decide) (by decide),
   (dfa_trigger_prefers_plain exDfa 0 7).2 2 (by decide) (by decide)⟩

/-- C5: a DFA `test_trigger(label)` is true exactly when the plain table
has an entry for `(current_state, label)` or the fallback table has an
entry for `current_state`; in particular a state holding a fallback edge
reports every label as triggerable. -/
theorem dfa_test_trigger_iff {S T : Type} [DecidableEq S] [DecidableEq T]
    (bp : DFAutoBlueprint S T) (s : S) (tr : T) :
    (DFAuto.test_trigger bp s tr = true ↔
      (∃ e ∈ bp.graph, e.1 = (s, tr)) ∨ ∃ e ∈ bp.fallback_graph, e.1 = s) ∧
    ((∃ e ∈ bp.fallback_graph, e.1 = s) →
      ∀ tr2, DFAuto.test_trigger bp s tr2 = true) := by
  constructor
  · simp only [DFAuto.test_trigger, Bool.or_eq_true, lookupA_isSome_iff]
  · intro hf tr2
    simp only [DFAuto.test_trigger, Bool.or_eq_true, lookupA_isSome_iff]
    exact Or.inr hf

theorem dfa_test_trigger_iff_witness :
    DFAuto.test_trigger exDfa 0 9 = true :=
  (dfa_test_trigger_iff exDfa 0 9).2 ⟨(0, 2), by decide, rfl⟩ 9

/-- C9: `connect` fails with the fatal "duplicated transition" error
exactly when an earlier registration for the same `(from, label)` pair
named a different destination, and `connect_fallback` fails with its
fatal error exactly when an earlier fallback registration for the state
named a different destination; re-registering an identical edge or
fallback succeeds and leaves the builder unchanged. -/
theorem dfa_builder_connect_conflict {S T : Type} [DecidableEq S] [DecidableEq T]
    (b : DFAutoBuilder S T) (f : S) (tr : T) (d g : S) :
    (b.connect f tr d = Except.error "duplicated transition" ↔
      ∃ old, lookupA b.graph (f, tr) = some old ∧ old ≠ d) ∧
    (lookupA b.graph (f, tr) = some d → b.connect f tr d = Except.ok b) ∧
    (b.connect_fallback f g = Except.error "duplicated fallback transition" ↔
      ∃ old, lookupA b.fallback_graph f = some old ∧ old ≠ g) ∧
    (lookupA b.fallback_graph f = some g → b.connect_fallback f g = Except.ok b) := by
  refine ⟨?_, ?_, ?_, ?_⟩
  · constructor
    · intro h
      cases hl : lookupA b.graph (f, tr) with
      | none => simp [DFAutoBuilder.connect, hl] at h
      | some old =>
        by_cases he : old = d
        · simp [DFAutoBuilder.connect, hl, he] at h
        · exact ⟨old, rfl, he⟩
    · rintro ⟨old, hl, hne⟩
      simp [DFAutoBuilder.connect, hl, hne]
  · intro h
    simp [DFAutoBuilder.connect, h, updateA_of_lookupA_eq _ _ _ h]
  · constructor
    · intro h
      cases hl : lookupA b.fallback_graph f with
      | none => simp [DFAutoBuilder.connect_fallback, hl] at h
      | some old =>
        by_cases he : old = g
        · simp [DFAutoBuilder.connect_fallback, hl, he] at h
        · exact ⟨old, rfl, he⟩
    · rintro ⟨old, hl, hne⟩
      simp [DFAutoBuilder.connect_fallback, hl, hne]
  · intro h
    simp [DFAutoBuilder.connect_fallback, h, updateA_of_lookupA_eq _ _ _ h]

theorem dfa_builder_connect_conflict_witness :
    exBuilder.connect 0 5 1 = Except.ok exBuilder ∧
    exBuilder.connect 0 5 2 = Except.error "duplicated transition" ∧
    exBuilder.connect_fallback 0 2 = Except.ok exBuilder ∧
    exBuilder.connect_fallback 0 3 = Except.error "duplicated fallback transition" :=
  ⟨(dfa_builder_connect_conflict exBuilder 0 5 1 2).2.1 (by decide),
   (dfa_builder_connect_conflict exBuilder 0 5 2 3).1.mpr ⟨1, by decide, by decide⟩,
   (dfa_builder_connect_conflict exBuilder 0 5 1 2).2.2.2 (by decide),
   (dfa_builder_connect_conflict exBuilder 0 5 2 3).2.2.1.mpr ⟨2, by decide, by decide⟩⟩

theorem lookupA_none_of_no_state {S T : Type} [DecidableEq S] [DecidableEq T]
    (g : List ((S × T) × S)) (s : S) (tr : T)
    (h : libHasState g s = false) : lookupA g (s, tr) = none := by
  induction g with
  | nil => rfl
  | cons p rest ih =>
    simp only [libHasState, List.any_cons, Bool.or_eq_false_iff,
      decide_eq_false_iff_not] at h
    have hp : ¬(p.1 = (s, tr)) := by
      intro he
      exact h.1 (by rw [he])
    simp only [lookupA, if_neg hp]
    exact ih (by simpa [libHasState] using h.2)

/-- C10: for the fallback-less DFA walker at the crate root (`lib.rs`),
`test_trigger` panics (models as `none`) whenever the current state has
no outgoing plain transitions at all, instead of returning `false`, and
`trigger` on such a state likewise panics; so a mere legality query on a
walker sitting at such a state (e.g. an accept state with no outgoing
edges) aborts. -/
theorem lib_dfa_query_panics {S T : Type} [DecidableEq S] [DecidableEq T]
    (bp : LibDFAutoBlueprint S T) (s : S) (tr : T)
    (h : libHasState bp.graph s = false) :
    LibDFAuto.test_trigger bp s tr = none ∧ LibDFAuto.trigger bp s tr = none := by
  constructor
  · simp [LibDFAuto.test_trigger, h]
  · exact lookupA_none_of_no_state bp.graph s tr h

theorem lib_dfa_query_panics_witness :
    LibDFAuto.trigger exLib 0 5 = some 1 ∧
    LibDFAuto.test_trigger exLib 1 5 = none ∧ LibDFAuto.trigger exLib 1 5 = none :=
  ⟨by decide,
   (lib_dfa_query_panics exLib 1 5 (by decide)).1,
   (lib_dfa_query_panics exLib 1 5 (by decide)).2⟩

/-! ## The determinizer never raises a builder conflict -/

theorem lookupA_updateA {K V : Type} [DecidableEq K] :
    ∀ (l : List (K × V)) (k k2 : K) (v : V),
      lookupA (updateA l k v) k2 = if k = k2 then some v else lookupA l k2 := by
  intro l
  induction l with
  | nil =>
    intro k k2 v
    rfl
  | cons p rest ih =>
    intro k k2 v
    by_cases hp : p.1 = k
    · simp only [updateA, if_pos hp, lookupA]
      by_cases hk : k = k2
      · simp [hk]
      · have hp2 : ¬(p.1 = k2) := by
          rw [hp]
          exact hk
        simp [hk, lookupA, hp2]
    · simp only [updateA, if_neg hp, lookupA]
      by_cases hpk2 : p.1 = k2
      · have hk : ¬(k = k2) := fun he => hp (hpk2.trans he.symm)
        simp [hpk2, hk]
      · rw [if_neg hpk2, ih k k2 v]
        by_cases hk : k = k2
        · simp [hk]
        · simp [hk, lookupA, hpk2]

theorem connect_agg {S T : Type} [DecidableEq S] [DecidableEq T]
    (nfa : NFAutoBlueprint S T) (b : DFAutoBuilder (Finset S) T)
    (sset : Finset S) (t : T)
    (hb : ∀ R t2 d, lookupA b.graph (R, t2) = some d → d = aggDest nfa R t2) :
    b.connect sset t (aggDest nfa sset t)
        = Except.ok { b with graph := updateA b.graph (sset, t) (aggDest nfa sset t) } ∧
    ∀ R t2 d, lookupA (updateA b.graph (sset, t) (aggDest nfa sset t)) (R, t2) = some d →
      d = aggDest nfa R t2 := by
  constructor
  · cases hl : lookupA b.graph (sset, t) with
    | none => simp [DFAutoBuilder.connect, hl]
    | some old =>
      have hold := hb sset t old hl
      simp [DFAutoBuilder.connect, hl, hold]
  · intro R t2 d hd
    rw [lookupA_updateA] at hd
    by_cases he : (sset, t) = (R, t2)
    · rw [if_pos he] at hd
      have h1 : sset = R := congrArg Prod.fst he
      have h2 : t = t2 := congrArg Prod.snd he
      subst h1
      subst h2
      exact (Option.some.inj hd).symm
    · rw [if_neg he] at hd
      exact hb R t2 d hd

theorem connect_fallback_agg {S T : Type} [DecidableEq S] [DecidableEq T]
    (nfa : NFAutoBlueprint S T) (b : DFAutoBuilder (Finset S) T) (sset : Finset S)
    (hb : ∀ R d, lookupA b.fallback_graph R = some d → d = aggWild nfa R) :
    b.connect_fallback sset (aggWild nfa sset)
        = Except.ok
            { b with fallback_graph := updateA b.fallback_graph sset (aggWild nfa sset) } ∧
    ∀ R d, lookupA (updateA b.fallback_graph sset (aggWild nfa sset)) R = some d →
      d = aggWild nfa R := by
  constructor
  · cases hl : lookupA b.fallback_graph sset with
    | none => simp [DFAutoBuilder.connect_fallback, hl]
    | some old =>
      have hold := hb sset old hl
      simp [DFAutoBuilder.connect_fallback, hl, hold]
  · intro R d hd
    rw [lookupA_updateA] at hd
    by_cases he : sset = R
    · rw [if_pos he] at hd
      subst he
      exact (Option.some.inj hd).symm
    · rw [if_neg he] at hd
      exact hb R d hd

theorem connectLabels_ok {S T : Type} [DecidableEq S] [DecidableEq T]
    (nfa : NFAutoBlueprint S T) (sset : Finset S) (resolved : Finset (Finset S)) :
    ∀ (labs : List T) (b : DFAutoBuilder (Finset S) T) (pushes : List (Finset S)),
      (∀ R t2 d, lookupA b.graph (R, t2) = some d → d = aggDest nfa R t2) →
      (∀ R d, lookupA b.fallback_graph R = some d → d = aggWild nfa R) →
      ∃ b2 p2, connectLabels nfa sset resolved b labs pushes = Except.ok (b2, p2) ∧
        (∀ R t2 d, lookupA b2.graph (R, t2) = some d → d = aggDest nfa R t2) ∧
        (∀ R d, lookupA b2.fallback_graph R = some d → d = aggWild nfa R) := by
  intro labs
  induction labs with
  | nil =>
    intro b pushes hg hf
    exact ⟨b, pushes, rfl, hg, hf⟩
  | cons t rest ih =>
    intro b pushes hg hf
    obtain ⟨hok, hg2⟩ := connect_agg nfa b sset t hg
    obtain ⟨b2, p2, hrec, hg3, hf3⟩ :=
      ih { b with graph := updateA b.graph (sset, t) (aggDest nfa sset t) }
        (if aggDest nfa sset t ∈ resolved then pushes else aggDest nfa sset t :: pushes)
        hg2 hf
    refine ⟨b2, p2, ?_, hg3, hf3⟩
    simp only [connectLabels, hok]
    exact hrec

theorem detStep_ok {S T : Type} [DecidableEq S] [LinearOrder T]
    (nfa : NFAutoBlueprint S T) (b : DFAutoBuilder (Finset S) T)
    (sset : Finset S) (resolved : Finset (Finset S))
    (hg : ∀ R t2 d, lookupA b.graph (R, t2) = some d → d = aggDest nfa R t2)
    (hf : ∀ R d, lookupA b.fallback_graph R = some d → d = aggWild nfa R) :
    ∃ b2 p2, detStep nfa b sset resolved = Except.ok (b2, p2) ∧
      (∀ R t2 d, lookupA b2.graph (R, t2) = some d → d = aggDest nfa R t2) ∧
      (∀ R d, lookupA b2.fallback_graph R = some d → d = aggWild nfa R) := by
  simp only [detStep]
  by_cases ha : sset ∩ nfa.accept_state_set = ∅
  · rw [if_pos ha]
    obtain ⟨b2, p2, hok, hg2, hf2⟩ :=
      connectLabels_ok nfa sset resolved (finsetSort (labelsOf nfa sset)) b []
        hg hf
    simp only [hok]
    by_cases hw : aggWild nfa sset = ∅
    · rw [if_pos hw]
      exact ⟨b2, p2, rfl, hg2, hf2⟩
    · rw [if_neg hw]
      obtain ⟨hfok, hf3⟩ := connect_fallback_agg nfa b2 sset hf2
      simp only [hfok]
      exact ⟨_, _, rfl, hg2, hf3⟩
  · rw [if_neg ha]
    obtain ⟨b2, p2, hok, hg2, hf2⟩ :=
      connectLabels_ok nfa sset resolved (finsetSort (labelsOf nfa sset))
        (b.accept sset) []
        (fun R t2 d h => hg R t2 d h) (fun R d h => hf R d h)
    simp only [hok]
    by_cases hw : aggWild nfa sset = ∅
    · rw [if_pos hw]
      exact ⟨b2, p2, rfl, hg2, hf2⟩
    · rw [if_neg hw]
      obtain ⟨hfok, hf3⟩ := connect_fallback_agg nfa b2 sset hf2
      simp only [hfok]
      exact ⟨_, _, rfl, hg2, hf3⟩

theorem detLoop_no_dup {S T : Type} [DecidableEq S] [LinearOrder T]
    (nfa : NFAutoBlueprint S T) :
    ∀ (fuel : Nat) (b : DFAutoBuilder (Finset S) T) (wl : List (Finset S))
      (resolved : Finset (Finset S)),
      (∀ R t2 d, lookupA b.graph (R, t2) = some d → d = aggDest nfa R t2) →
      (∀ R d, lookupA b.fallback_graph R = some d → d = aggWild nfa R) →
      isDupError (detLoop nfa fuel b wl resolved) = false := by
  intro fuel
  induction fuel with
  | zero =>
    intro b wl resolved hg hf
    cases wl with
    | nil => rfl
    | cons sset rest => rfl
  | succ n ih =>
    intro b wl resolved hg hf
    cases wl with
    | nil => rfl
    | cons sset rest =>
      obtain ⟨b2, p2, hok, hg2, hf2⟩ := detStep_ok nfa b sset resolved hg hf
      simp only [detLoop, hok]
      exact ih b2 (p2 ++ rest) (insert sset resolved) hg2 hf2

/-- C6: for every NFA blueprint and every amount of fuel given to the
embedded work-list loop, `determinize` never raises the
duplicated-transition or duplicated-fallback construction error on its
own output: every `(state-set, label)` pair and every state-set fallback
it registers is only ever given the one destination determined by that
state set (`aggDest` / `aggWild`), even when a state set is pushed onto
the work list and processed more than once. -/
theorem determinize_output_functional {S T : Type} [DecidableEq S] [LinearOrder T]
    (nfa : NFAutoBlueprint S T) (fuel : Nat) :
    isDupError (determinize nfa fuel) = false := by
  unfold determinize
  apply detLoop_no_dup
  · intro R t2 d h
    exact Option.noConfusion h
  · intro R d h
    exact Option.noConfusion h

/-- C1 (refuted): whole-sequence matching does not agree between an NFA
walker and the walker of its determinization.  On `exNfa` (plain edge
`0 --5--> 1`, wildcard edge `0 --*--> 2`, accept `2`) and the sequence
`[5]`, the NFA walker accepts (the wildcard edge consumes `5` and
reaches the accept state) while the determinized DFA walker rejects:
`determinize` puts the wildcard destinations only into the fallback
edge, and the DFA `trigger` prefers the plain edge for `5`, losing the
wildcard branch. -/
theorem determinize_wildcard_divergence :
    nfaTest exNfa [5] = true ∧
    (match determinize exNfa 10 with
     | Except.ok dbp => dfaTest dbp [5]
     | Except.error _ => true) = false :=
  ⟨by decide, by decide⟩
